import Mathlib

/-!
# Verification of the PageRank estimators (`pagerank.py`)

Shallow embedding of the three core functions of the repository:
`transition_model`, `sample_pagerank` and `iterate_pagerank`.

Modelling conventions:

* A Python dict with string keys is modelled either as an association list
  `List (Page × _)` (when the key set of the result matters) or as a plain
  function `Page → ℚ` (for the rank dict of the iterative solver, whose key
  set is fixed once and for all at initialisation).
* Floating point numbers are modelled as exact rationals `ℚ`; the numeric
  literals of the source (`0.001`, damping factors) become exact rationals.
* The randomness of `sample_pagerank` is externalised: the initial page
  (`random.choice(all_pages)`) becomes an explicit argument `start`, and the
  weighted draw `random.choices(all_pages, model.values())[0]` becomes an
  oracle `pick : ℕ → List (Page × ℚ) → Page` receiving the step number and
  the transition model of the current page.  `random.choices` always returns
  a member of its population `all_pages`; theorems carry that as a
  hypothesis on `pick`.
* Python's unbounded `while` loop of `iterate_pagerank` is modelled with an
  explicit fuel parameter; `none` means the loop has not finished within the
  given fuel, so termination of the source loop is `∃ fuel, … = some _`.
* Python raising an exception (KeyError/IndexError/ZeroDivisionError) is
  modelled as `none` where the claims are about fallibility; reads of
  `corpus[page]` are total here (`linksOf` defaults to `[]`), which is only
  relied upon under the precondition `page ∈ corpusKeys corpus` that every
  claim about `transition_model` carries, matching the spec's precondition.
-/

abbrev Page := String

/-- A corpus: the Python dict mapping each page to its set of outbound
links, as an association list in dict (insertion) order; the link set is a
duplicate-free list. -/
abbrev Corpus := List (Page × List Page)

/-- The keys of the corpus dict, in order. -/
def corpusKeys (c : Corpus) : List Page := c.map Prod.fst

/-- `corpus[page]`: the outbound links of `page` (defaults to `[]` for a
missing key; all uses are guarded by `page ∈ corpusKeys c`). -/
def linksOf (c : Corpus) (p : Page) : List Page := (c.lookup p).getD []

/-- `d[k] += v` on an association list with rational values: every entry
whose key is `k` has `v` added to its value (a missing key is a no-op; the
source would raise KeyError, but the corpus invariant "links point to corpus
keys" makes that unreachable). -/
def addToKey (d : List (Page × ℚ)) (k : Page) (v : ℚ) : List (Page × ℚ) :=
  d.map fun kv => if kv.1 = k then (kv.1, kv.2 + v) else kv

/-- `d[q]` on an association list: value of the first entry with key `q`. -/
def valueAt (d : List (Page × ℚ)) (q : Page) : Option ℚ :=
  (d.find? fun kv => kv.1 = q).map Prod.snd

/-- The values `d.values()` of an association list, summed. -/
def valuesSum (d : List (Page × ℚ)) : ℚ := (d.map Prod.snd).sum

/-- Embedding of `transition_model(corpus, page, damping_factor)`:
if the current page has links, every page receives `(1-d)/N` and each linked
page additionally receives `d/links`; otherwise every page receives `1/N`. -/
def transition_model (corpus : Corpus) (page : Page) (damping_factor : ℚ) :
    List (Page × ℚ) :=
  let links := (linksOf corpus page).length
  if links ≠ 0 then
    let prob := damping_factor / (links : ℚ)
    let additional_prob := (1 - damping_factor) / (corpus.length : ℚ)
    (linksOf corpus page).foldl (fun acc l => addToKey acc l prob)
      (corpus.map fun kv => (kv.1, additional_prob))
  else
    corpus.map fun kv => (kv.1, 1 / (corpus.length : ℚ))

/-- `d[k] += 1` on the visit-counter dict of `sample_pagerank`. -/
def bumpCount (d : List (Page × ℕ)) (k : Page) : List (Page × ℕ) :=
  d.map fun kv => if kv.1 = k then (kv.1, kv.2 + 1) else kv

/-- Embedding of `sample_pagerank(corpus, damping_factor, n)`.

`none` models the two run-time errors of the source: `random.choice([])`
raises IndexError on an empty corpus, and `d[page] /= n` raises
ZeroDivisionError for `n = 0`.  For any other `n` (including negative `n`,
whose `range(n)` is empty) the source returns a dict; `n.toNat` is the
number of iterations of `for i in range(n)`. -/
def sample_pagerank (corpus : Corpus) (damping_factor : ℚ) (n : ℤ)
    (start : Page) (pick : ℕ → List (Page × ℚ) → Page) :
    Option (List (Page × ℚ)) :=
  if corpus.isEmpty then none
  else if n = 0 then none
  else
    let final := (List.range n.toNat).foldl
      (fun (st : List (Page × ℕ) × Page) i =>
        (bumpCount st.1 st.2,
         pick i (transition_model corpus st.2 damping_factor)))
      (corpus.map fun kv => (kv.1, 0), start)
    some (final.1.map fun kv => (kv.1, (kv.2 : ℚ) / (n : ℚ)))

/-- The sequence of current pages of the sampling walk: `walkVisits … i` is
the value of `random_page` at the start of iteration `i` of the loop. -/
def walkVisits (corpus : Corpus) (damping_factor : ℚ) (start : Page)
    (pick : ℕ → List (Page × ℚ) → Page) : ℕ → Page
  | 0 => start
  | i + 1 =>
      pick i (transition_model corpus
        (walkVisits corpus damping_factor start pick i) damping_factor)

/-- The inner summation of `iterate_pagerank`: for a given target `page`,
`Σ over link in corpus, if page ∈ corpus[link] then d·rank(link)/len(corpus[link])`,
read from the current state `d` of the rank dict. -/
def pageSummation (corpus : Corpus) (damping_factor : ℚ) (d : Page → ℚ)
    (page : Page) : ℚ :=
  corpus.foldl
    (fun s kv =>
      if page ∈ kv.2 then s + damping_factor * d kv.1 / (kv.2.length : ℚ)
      else s) 0

/-- One full pass of the `while` loop of `iterate_pagerank`: the rank dict is
updated in place page by page, and `converted_count` counts the pages whose
check `|d[page] - (odds + summation)| < 0.001` succeeded.  Returns the dict
after the pass together with the count. -/
def iterPass (corpus : Corpus) (damping_factor : ℚ) (d : Page → ℚ) :
    (Page → ℚ) × ℕ :=
  corpus.foldl
    (fun st kv =>
      let summation := pageSummation corpus damping_factor st.1 kv.1
      let newv := (1 - damping_factor) / (corpus.length : ℚ) + summation
      (fun s => if s = kv.1 then newv else st.1 s,
       if |st.1 kv.1 - newv| < 1 / 1000 then st.2 + 1 else st.2))
    (d, 0)

/-- The `while not converged` loop, with fuel: stop and return the dict as
soon as a pass reports `converted_count == N`. -/
def iterLoop (corpus : Corpus) (damping_factor : ℚ) :
    ℕ → (Page → ℚ) → Option (Page → ℚ)
  | 0, _ => none
  | fuel + 1, d =>
      let p := iterPass corpus damping_factor d
      if p.2 = corpus.length then some p.1
      else iterLoop corpus damping_factor fuel p.1

/-- The initial rank dict of `iterate_pagerank`: every page of the corpus
starts at `1/N` (non-keys are never read; they default to `0`). -/
def initDict (corpus : Corpus) : Page → ℚ :=
  fun s => if s ∈ corpusKeys corpus then 1 / (corpus.length : ℚ) else 0

/-- Embedding of `iterate_pagerank(corpus, damping_factor)`, with fuel for
the unbounded `while` loop. -/
def iterate_pagerank (corpus : Corpus) (damping_factor : ℚ) (fuel : ℕ) :
    Option (Page → ℚ) :=
  iterLoop corpus damping_factor fuel (initDict corpus)

/-- The sum of the returned ranks over the corpus keys (`sum(d.values())`
for the rank dict, whose keys are exactly the corpus keys). -/
def rankSum (corpus : Corpus) (d : Page → ℚ) : ℚ :=
  (corpus.map fun kv => d kv.1).sum

/-- The synchronous (Jacobi) reference step the spec prescribes: every new
rank is computed from the unchanged previous snapshot `d`. -/
def jacobiStep (corpus : Corpus) (damping_factor : ℚ) (d : Page → ℚ) :
    Page → ℚ :=
  fun p => (1 - damping_factor) / (corpus.length : ℚ) +
    pageSummation corpus damping_factor d p

/-! ## Association-list lemmas -/

theorem valueAt_cons (kv : Page × ℚ) (rest : List (Page × ℚ)) (q : Page) :
    valueAt (kv :: rest) q = if kv.1 = q then some kv.2 else valueAt rest q := by
  by_cases h : kv.1 = q <;> simp [valueAt, List.find?_cons, h]

theorem addToKey_keys (d : List (Page × ℚ)) (k : Page) (v : ℚ) :
    (addToKey d k v).map Prod.fst = d.map Prod.fst := by
  simp only [addToKey, List.map_map]
  refine List.map_congr_left ?_
  intro kv _
  by_cases h : kv.1 = k <;> simp [h]

theorem addToKey_cons (kv : Page × ℚ) (rest : List (Page × ℚ)) (k : Page)
    (v : ℚ) :
    addToKey (kv :: rest) k v =
      (if kv.1 = k then (kv.1, kv.2 + v) else kv) :: addToKey rest k v := by
  by_cases h : kv.1 = k <;> simp [addToKey, h]

theorem addToKey_of_not_mem (d : List (Page × ℚ)) (k : Page) (v : ℚ)
    (hk : k ∉ d.map Prod.fst) : addToKey d k v = d := by
  induction d with
  | nil => rfl
  | cons kv rest ih =>
      simp only [List.map_cons, List.mem_cons, not_or] at hk
      rw [addToKey_cons, if_neg (fun h => hk.1 h.symm), ih hk.2]

theorem valueAt_addToKey (d : List (Page × ℚ)) (k q : Page) (v : ℚ) :
    valueAt (addToKey d k v) q =
      if q = k then (valueAt d q).map (· + v) else valueAt d q := by
  induction d with
  | nil => by_cases h : q = k <;> simp [addToKey, valueAt, h]
  | cons kv rest ih =>
      rw [addToKey_cons]
      by_cases hk : kv.1 = k
      · rw [if_pos hk, valueAt_cons, valueAt_cons]
        by_cases hq : kv.1 = q
        · have hqk : q = k := hq.symm.trans hk
          simp [hq, hqk]
        · have hqk : ¬q = k := fun h => hq (hk.trans h.symm)
          simp [hq, hqk, ih]
      · rw [if_neg hk, valueAt_cons, valueAt_cons]
        by_cases hq : kv.1 = q
        · have hqk : ¬q = k := fun h => hk (hq.trans h)
          simp [hq, hqk]
        · simp [hq, ih]

theorem foldl_addToKey_keys (ls : List Page) (d : List (Page × ℚ)) (v : ℚ) :
    ((ls.foldl (fun acc l => addToKey acc l v) d).map Prod.fst) =
      d.map Prod.fst := by
  induction ls generalizing d with
  | nil => rfl
  | cons a rest ih => rw [List.foldl_cons, ih, addToKey_keys]

theorem valueAt_foldl_addToKey_of_not_mem (ls : List Page)
    (d : List (Page × ℚ)) (v : ℚ) (q : Page) (hq : q ∉ ls) :
    valueAt (ls.foldl (fun acc l => addToKey acc l v) d) q = valueAt d q := by
  induction ls generalizing d with
  | nil => rfl
  | cons a rest ih =>
      simp only [List.mem_cons, not_or] at hq
      rw [List.foldl_cons, ih _ hq.2, valueAt_addToKey, if_neg hq.1]

theorem valueAt_foldl_addToKey_of_mem (ls : List Page) (d : List (Page × ℚ))
    (v : ℚ) (q : Page) (hnd : ls.Nodup) (hq : q ∈ ls) :
    valueAt (ls.foldl (fun acc l => addToKey acc l v) d) q =
      (valueAt d q).map (· + v) := by
  induction ls generalizing d with
  | nil => cases hq
  | cons a rest ih =>
      rw [List.foldl_cons]
      rcases List.mem_cons.mp hq with h | h
      · have hnotin : q ∉ rest := h ▸ (List.nodup_cons.mp hnd).1
        rw [valueAt_foldl_addToKey_of_not_mem _ _ _ _ hnotin,
          valueAt_addToKey, if_pos h]
      · rw [ih _ (List.nodup_cons.mp hnd).2 h, valueAt_addToKey]
        by_cases hqa : q = a
        · exact absurd (hqa ▸ h) (List.nodup_cons.mp hnd).1
        · rw [if_neg hqa]

theorem valuesSum_addToKey_of_mem (d : List (Page × ℚ)) (k : Page) (v : ℚ)
    (hnd : (d.map Prod.fst).Nodup) (hk : k ∈ d.map Prod.fst) :
    valuesSum (addToKey d k v) = valuesSum d + v := by
  induction d with
  | nil => cases hk
  | cons kv rest ih =>
      simp only [List.map_cons, List.nodup_cons] at hnd
      rw [addToKey_cons]
      rcases List.mem_cons.mp hk with h | h
      · rw [if_pos h.symm,
          addToKey_of_not_mem _ _ _ (h ▸ hnd.1)]
        simp [valuesSum]
        ring
      · have hne : ¬kv.1 = k := fun he => hnd.1 (he ▸ h)
        rw [if_neg hne]
        simp only [valuesSum, List.map_cons, List.sum_cons] at ih ⊢
        rw [ih hnd.2 h]
        ring

theorem valuesSum_foldl_addToKey (ls : List Page) (d : List (Page × ℚ))
    (v : ℚ) (hnd : (d.map Prod.fst).Nodup)
    (hls : ∀ l ∈ ls, l ∈ d.map Prod.fst) :
    valuesSum (ls.foldl (fun acc l => addToKey acc l v) d) =
      valuesSum d + v * (ls.length : ℚ) := by
  induction ls generalizing d with
  | nil => simp
  | cons a rest ih =>
      rw [List.foldl_cons]
      have hka : (addToKey d a v).map Prod.fst = d.map Prod.fst :=
        addToKey_keys d a v
      rw [ih (addToKey d a v) (hka ▸ hnd)
          (fun l hl => hka ▸ hls l (List.mem_cons_of_mem _ hl)),
        valuesSum_addToKey_of_mem d a v hnd (hls a (List.mem_cons_self a rest))]
      rw [List.length_cons]
      push_cast
      ring

theorem foldl_addToKey_nonneg (ls : List Page) (d : List (Page × ℚ)) (v : ℚ)
    (hv : 0 ≤ v) (hd : ∀ kv ∈ d, 0 ≤ kv.2) :
    ∀ kv ∈ ls.foldl (fun acc l => addToKey acc l v) d, 0 ≤ kv.2 := by
  induction ls generalizing d with
  | nil => exact hd
  | cons a rest ih =>
      rw [List.foldl_cons]
      refine ih _ ?_
      intro kv hkv
      rcases List.mem_map.mp hkv with ⟨kw, hkw, hmap⟩
      by_cases h : kw.1 = a
      · rw [if_pos h] at hmap
        rw [← hmap]
        exact add_nonneg (hd kw hkw) hv
      · rw [if_neg h] at hmap
        rw [← hmap]
        exact hd kw hkw

theorem keys_const_map (c : Corpus) (v : ℚ) :
    ((c.map fun kv => (kv.1, v)).map Prod.fst) = corpusKeys c := by
  simp [corpusKeys, List.map_map]

theorem valueAt_const_map (c : Corpus) (v : ℚ) (q : Page)
    (hq : q ∈ corpusKeys c) :
    valueAt (c.map fun kv => (kv.1, v)) q = some v := by
  induction c with
  | nil => cases hq
  | cons kv rest ih =>
      rw [List.map_cons, valueAt_cons]
      by_cases h : kv.1 = q
      · rw [if_pos h]
      · rcases List.mem_cons.mp hq with he | he
        · exact absurd he.symm h
        · rw [if_neg h]
          exact ih he

theorem valuesSum_const_map (c : Corpus) (v : ℚ) :
    valuesSum (c.map fun kv => (kv.1, v)) = (c.length : ℚ) * v := by
  induction c with
  | nil => simp [valuesSum]
  | cons kv rest ih =>
      simp only [valuesSum, List.map_cons, List.sum_cons] at ih ⊢
      rw [ih, List.length_cons]
      push_cast
      ring

/-! ## Claims C5, C6, C7: `transition_model` -/

/-- C5: for every corpus, every page `p` of the corpus with `L ≥ 1` outbound
links and every damping factor in `(0,1)`, `transition_model` assigns to
every page `q` of the corpus the base probability `(1-d)/N`, plus an extra
`d/L` when `q` is one of `p`'s links. -/
theorem transition_model_linked_distribution
    (corpus : Corpus) (p q : Page) (df : ℚ)
    (hp : p ∈ corpusKeys corpus)
    (hL : 1 ≤ (linksOf corpus p).length)
    (hnd : (linksOf corpus p).Nodup)
    (hd0 : 0 < df) (hd1 : df < 1)
    (hq : q ∈ corpusKeys corpus) :
    valueAt (transition_model corpus p df) q =
      some ((1 - df) / (corpus.length : ℚ) +
        if q ∈ linksOf corpus p then df / ((linksOf corpus p).length : ℚ)
        else 0) := by
  have hL0 : (linksOf corpus p).length ≠ 0 := by omega
  simp only [transition_model, ne_eq, hL0, not_false_eq_true, if_true]
  by_cases hmem : q ∈ linksOf corpus p
  · rw [valueAt_foldl_addToKey_of_mem _ _ _ _ hnd hmem,
      valueAt_const_map corpus _ q hq, if_pos hmem]
    rfl
  · rw [valueAt_foldl_addToKey_of_not_mem _ _ _ _ hmem,
      valueAt_const_map corpus _ q hq, if_neg hmem, add_zero]

theorem transition_model_linked_distribution_witness :
    valueAt (transition_model [("a", ["b"]), ("b", ["a"])] "b" (17/20)) "a" =
      some (37/40) := by
  rw [transition_model_linked_distribution _ _ _ _ (by decide) (by decide)
    (by decide) (by norm_num) (by norm_num) (by decide),
    show linksOf [("a", ["b"]), ("b", ["a"])] "b" = ["a"] from rfl]
  norm_num

/-- C6: for every corpus and every page `p` of the corpus with zero outbound
links, `transition_model` returns the uniform distribution `1/N` on every
page of the corpus (including `p` itself), whatever the damping factor. -/
theorem transition_model_dangling_uniform
    (corpus : Corpus) (p : Page) (df : ℚ)
    (hp : p ∈ corpusKeys corpus)
    (hdangling : linksOf corpus p = []) :
    ∀ q ∈ corpusKeys corpus,
      valueAt (transition_model corpus p df) q =
        some (1 / (corpus.length : ℚ)) := by
  intro q hq
  simp only [transition_model, hdangling, List.length_nil, ne_eq,
    not_true_eq_false, if_false]
  exact valueAt_const_map corpus _ q hq

theorem transition_model_dangling_uniform_witness :
    valueAt (transition_model [("a", []), ("b", ["a"])] "a" (1/3)) "a" =
      some (1/2) ∧
    valueAt (transition_model [("a", []), ("b", ["a"])] "a" (1/3)) "b" =
      some (1/2) := by
  constructor
  · rw [transition_model_dangling_uniform _ _ _ (by decide) (by decide) "a"
      (by decide)]
    norm_num
  · rw [transition_model_dangling_uniform _ _ _ (by decide) (by decide) "b"
      (by decide)]
    norm_num

/-- C7: for every non-empty corpus, every page `p` of the corpus and every
damping factor in `(0,1)`, `transition_model` returns a mapping whose keys
are exactly the corpus's pages, whose values are all nonnegative, and whose
values sum to exactly `1` (the corpus invariant "links point into the
corpus" is assumed, as the spec states the producer guarantees it). -/
theorem transition_model_valid_distribution
    (corpus : Corpus) (p : Page) (df : ℚ)
    (hne : corpus ≠ [])
    (hkeys : (corpusKeys corpus).Nodup)
    (hsub : ∀ l ∈ linksOf corpus p, l ∈ corpusKeys corpus)
    (hp : p ∈ corpusKeys corpus)
    (hd0 : 0 < df) (hd1 : df < 1) :
    ((transition_model corpus p df).map Prod.fst = corpusKeys corpus)
    ∧ (∀ kv ∈ transition_model corpus p df, 0 ≤ kv.2)
    ∧ valuesSum (transition_model corpus p df) = 1 := by
  have hN : (corpus.length : ℚ) ≠ 0 := by
    exact_mod_cast fun h => hne (List.length_eq_zero.mp h)
  by_cases hL : (linksOf corpus p).length = 0
  · simp only [transition_model, ne_eq, hL, not_true_eq_false, if_false]
    refine ⟨keys_const_map corpus _, ?_, ?_⟩
    · intro kv hkv
      rcases List.mem_map.mp hkv with ⟨kw, _, hmap⟩
      rw [← hmap]
      positivity
    · rw [valuesSum_const_map, mul_one_div, div_self hN]
  · simp only [transition_model, ne_eq, hL, not_false_eq_true, if_true]
    have hLQ : ((linksOf corpus p).length : ℚ) ≠ 0 := by exact_mod_cast hL
    have hbase : ∀ kv ∈ (corpus.map fun kv => (kv.1, (1 - df) / (corpus.length : ℚ))),
        0 ≤ kv.2 := by
      intro kv hkv
      rcases List.mem_map.mp hkv with ⟨kw, _, hmap⟩
      rw [← hmap]
      have : (0:ℚ) ≤ 1 - df := by linarith
      positivity
    refine ⟨?_, ?_, ?_⟩
    · rw [foldl_addToKey_keys, keys_const_map]
    · exact foldl_addToKey_nonneg _ _ _ (by positivity) hbase
    · rw [valuesSum_foldl_addToKey _ _ _
        (by rw [keys_const_map]; exact hkeys)
        (by rw [keys_const_map]; exact hsub),
        valuesSum_const_map]
      field_simp
  
theorem transition_model_valid_distribution_witness :
    (((transition_model [("a", ["b"]), ("b", ["a"])] "a" (17/20)).map
      Prod.fst = corpusKeys [("a", ["b"]), ("b", ["a"])])
    ∧ (∀ kv ∈ transition_model [("a", ["b"]), ("b", ["a"])] "a" (17/20),
        0 ≤ kv.2)
    ∧ valuesSum (transition_model [("a", ["b"]), ("b", ["a"])] "a" (17/20))
        = 1) :=
  transition_model_valid_distribution _ _ _ (by decide) (by decide)
    (by decide) (by decide) (by norm_num) (by norm_num)

/-! ## Claims C1, C2, C4: the iterative solver drops dangling-node mass

On the corpus `{"a.html": {}, "b.html": {"a.html"}}` the dangling page
`"a.html"` never satisfies `page in corpus[link]`, so it contributes to no
incoming sum and its rank mass is silently dropped, contradicting the
spec's dangling policy, the tolerance invariant, and Scenario 3. -/

/-- C1 (failing evaluation): one pass of `iterate_pagerank`'s loop, started
from the uniform initial dict of total mass `1`, on a corpus whose page
`"a.html"` is dangling: the new ranks are `a = 1/2`, `b = 3/40`, of total
`23/40 < 1`.  The dangling page's mass is dropped, not redistributed to
every page as the claim states (redistribution would give `b` the extra
`d·rank(a)/N = 17/80`). -/
theorem iterate_pagerank_drops_dangling_mass :
    (iterPass [("a.html", []), ("b.html", ["a.html"])] (17/20)
        (initDict [("a.html", []), ("b.html", ["a.html"])])).1 "a.html" = 1/2
    ∧ (iterPass [("a.html", []), ("b.html", ["a.html"])] (17/20)
        (initDict [("a.html", []), ("b.html", ["a.html"])])).1 "b.html" = 3/40
    ∧ rankSum [("a.html", []), ("b.html", ["a.html"])]
        (initDict [("a.html", []), ("b.html", ["a.html"])]) = 1
    ∧ (1:ℚ)/2 + 3/40 < 1 := by
  refine ⟨?_, ?_, ?_, by norm_num⟩ <;>
  norm_num [iterPass, pageSummation, initDict, corpusKeys, linksOf, rankSum,
    abs_lt,
    show ¬(("b.html":String) = "a.html") from by decide,
    show ¬(("a.html":String) = "b.html") from by decide]

/-- C2 (failing evaluation): on the dangling corpus
`{"a.html": {}, "b.html": {"a.html"}}` with damping `0.85`,
`iterate_pagerank` converges (in 3 passes) to ranks of total `171/800`,
which is not within `1e-3·N = 2/1000` of `1`. -/
theorem iterate_pagerank_sum_far_from_one :
    (iterate_pagerank [("a.html", []), ("b.html", ["a.html"])] (17/20) 3).map
      (rankSum [("a.html", []), ("b.html", ["a.html"])]) = some (171/800)
    ∧ ¬(|((171:ℚ)/800) - 1| ≤ 2 * (1/1000)) := by
  constructor
  · norm_num [iterate_pagerank, iterLoop, iterPass, pageSummation, initDict,
      corpusKeys, linksOf, rankSum, abs_lt,
      show ¬(("b.html":String) = "a.html") from by decide,
      show ¬(("a.html":String) = "b.html") from by decide]
  · rw [abs_le]
    norm_num

/-- C4 (failing evaluation): on the single-page corpus `{"a.html": set()}`
with damping `0.85`, `iterate_pagerank` returns rank `3/20 = 1 - d` for
`"a.html"`, not the `1.0` the claim requires (the dangling page's own mass
is dropped each pass). -/
theorem iterate_pagerank_single_dangling_not_one :
    (iterate_pagerank [("a.html", [])] (17/20) 2).map (fun r => r "a.html")
      = some (3/20) ∧ ((3:ℚ)/20) ≠ 1 := by
  constructor
  · norm_num [iterate_pagerank, iterLoop, iterPass, pageSummation, initDict,
      corpusKeys, linksOf, abs_lt]
  · norm_num

/-! ## Claim C9: failure conditions of `sample_pagerank` -/

/-- C9 (failing evaluation): for `n = -1` (so `n ≤ 0`) on a non-empty
corpus, `sample_pagerank` does not fail: `range(-1)` is empty and the final
division is by `-1 ≠ 0`, so the source returns the all-zero mapping
`{"a.html": 0.0}` instead of aborting. -/
theorem sample_pagerank_negative_n_returns_map :
    sample_pagerank [("a.html", [])] (17/20) (-1) "a.html"
      (fun _ _ => "a.html") = some [("a.html", 0)] := by
  norm_num [sample_pagerank, show ((-1:ℤ)).toNat = 0 from rfl]

/-! ## Positional (Gauss-Seidel) characterisation of one pass -/

/-- The corpus entry at position `i` (dummy entry off range). -/
def entryAt (c : Corpus) (i : ℕ) : Page × List Page := c.getD i ("", [])

/-- The key of the corpus entry at position `i`. -/
def keyAt (c : Corpus) (i : ℕ) : Page := (entryAt c i).1

/-- The link list of the corpus entry at position `i`. -/
def linksAt (c : Corpus) (i : ℕ) : List Page := (entryAt c i).2

/-- Contribution coefficient of the page at position `j` to the incoming
sum of the page at position `i`: `d / outdegree(j)` when `j` links to `i`,
else `0`. -/
def Acoef (c : Corpus) (df : ℚ) (i j : ℕ) : ℚ :=
  if keyAt c i ∈ linksAt c j then df / ((linksAt c j).length : ℚ) else 0

/-- The rank dict during a pass, after the first `i` in-place page
updates. -/
def gsVal (c : Corpus) (df : ℚ) (x : Page → ℚ) : ℕ → Page → ℚ
  | 0 => x
  | i + 1 => fun s =>
      if s = keyAt c i then
        (1 - df) / (c.length : ℚ) +
          pageSummation c df (gsVal c df x i) (keyAt c i)
      else gsVal c df x i s

/-- The convergence check the pass performs at position `i`: the value the
page held when its turn came, against its freshly computed value. -/
def convTest (c : Corpus) (df : ℚ) (x : Page → ℚ) (i : ℕ) : Bool :=
  decide (|gsVal c df x i (keyAt c i) - gsVal c df x (i + 1) (keyAt c i)|
    < 1 / 1000)

theorem gsVal_succ_self (c : Corpus) (df : ℚ) (x : Page → ℚ) (i : ℕ) :
    gsVal c df x (i + 1) (keyAt c i) =
      (1 - df) / (c.length : ℚ) +
        pageSummation c df (gsVal c df x i) (keyAt c i) := by
  simp [gsVal]

theorem iterPass_suffix (c : Corpus) (df : ℚ) (x : Page → ℚ) :
    ∀ (suf : List (Page × List Page)) (k m : ℕ), k ≤ c.length →
      c.drop k = suf →
      suf.foldl
        (fun st kv =>
          let summation := pageSummation c df st.1 kv.1
          let newv := (1 - df) / (c.length : ℚ) + summation
          (fun s => if s = kv.1 then newv else st.1 s,
           if |st.1 kv.1 - newv| < 1 / 1000 then st.2 + 1 else st.2))
        (gsVal c df x k, m) =
      (gsVal c df x c.length,
       m + (List.range' k suf.length).countP (convTest c df x)) := by
  intro suf
  induction suf with
  | nil =>
      intro k m hk hdrop
      have hlen : c.length ≤ k := List.drop_eq_nil_iff.mp hdrop
      have hkl : k = c.length := le_antisymm hk hlen
      subst hkl
      simp
  | cons kv rest ih =>
      intro k m hk hdrop
      have hklt : k < c.length := by
        by_contra hge
        push_neg at hge
        rw [List.drop_eq_nil_iff.mpr hge] at hdrop
        exact (List.cons_ne_nil kv rest) hdrop.symm
      have hsplit := List.drop_eq_getElem_cons hklt
      rw [hsplit] at hdrop
      injection hdrop with hkv hrest
      have hkey : keyAt c k = kv.1 := by
        rw [keyAt, entryAt, List.getD_eq_getElem _ _ hklt, hkv]
      rw [List.foldl_cons]
      have hstep :
          (fun (st : (Page → ℚ) × ℕ) (kv : Page × List Page) =>
            let summation := pageSummation c df st.1 kv.1
            let newv := (1 - df) / (c.length : ℚ) + summation
            ((fun s => if s = kv.1 then newv else st.1 s),
             if |st.1 kv.1 - newv| < 1 / 1000 then st.2 + 1 else st.2))
            (gsVal c df x k, m) kv
          = (gsVal c df x (k + 1),
             m + if convTest c df x k then 1 else 0) := by
        show ((fun s => if s = kv.1 then
            (1 - df) / (c.length : ℚ) +
              pageSummation c df (gsVal c df x k) kv.1
          else gsVal c df x k s),
          if |gsVal c df x k kv.1 -
              ((1 - df) / (c.length : ℚ) +
                pageSummation c df (gsVal c df x k) kv.1)| < 1 / 1000
          then m + 1 else m)
          = (gsVal c df x (k + 1),
             m + if convTest c df x k then 1 else 0)
        rw [Prod.mk.injEq]
        constructor
        · funext s
          rw [← hkey]
          rfl
        · rw [← hkey]
          by_cases hP : |gsVal c df x k (keyAt c k) -
              ((1 - df) / (c.length : ℚ) +
                pageSummation c df (gsVal c df x k) (keyAt c k))| < 1 / 1000
          · rw [if_pos hP]
            have : convTest c df x k = true := by
              rw [convTest, decide_eq_true_eq, gsVal_succ_self]
              exact hP
            rw [this, if_pos rfl]
          · rw [if_neg hP]
            have : convTest c df x k = false := by
              rw [convTest, decide_eq_false_iff_not, gsVal_succ_self]
              exact hP
            rw [this]
            simp
      refine Eq.trans (congrArg (fun z => List.foldl _ z rest) hstep) ?_
      refine Eq.trans
        (ih (k + 1) (m + if convTest c df x k then 1 else 0) hklt hrest) ?_
      rw [List.length_cons, List.range'_succ, List.countP_cons]
      by_cases hc : convTest c df x k <;> simp [hc] <;> omega

/-- One pass of the loop, described positionally: the resulting dict is the
full in-place sweep `gsVal … N`, and the convergence count is the number of
positions whose check succeeded. -/
theorem iterPass_eq_gsVal (c : Corpus) (df : ℚ) (x : Page → ℚ) :
    iterPass c df x =
      (gsVal c df x c.length,
       (List.range c.length).countP (convTest c df x)) := by
  have h := iterPass_suffix c df x c 0 0 (Nat.zero_le _) (List.drop_zero c)
  rw [List.range_eq_range']
  have hl : (List.range' 0 c.length).countP (convTest c df x) =
      0 + (List.range' 0 c.length).countP (convTest c df x) := by omega
  rw [hl]
  exact h

theorem keyAt_eq_keys_get (c : Corpus) {i : ℕ} (hi : i < c.length) :
    keyAt c i = (corpusKeys c).get ⟨i, by simpa [corpusKeys]⟩ := by
  rw [keyAt, entryAt, List.getD_eq_getElem _ _ hi]
  simp [corpusKeys]

theorem keyAt_inj (c : Corpus) (hnd : (corpusKeys c).Nodup) {i j : ℕ}
    (hi : i < c.length) (hj : j < c.length) (hij : i ≠ j) :
    keyAt c i ≠ keyAt c j := by
  rw [keyAt_eq_keys_get c hi, keyAt_eq_keys_get c hj]
  intro he
  have h2 := (List.Nodup.get_inj_iff hnd).mp he
  exact hij (by simpa using congrArg Fin.val h2)

theorem gsVal_eq_of_le (c : Corpus) (df : ℚ) (x : Page → ℚ)
    (hnd : (corpusKeys c).Nodup) {pos : ℕ} (hpos : pos < c.length) :
    ∀ {k : ℕ}, k ≤ pos → gsVal c df x k (keyAt c pos) = x (keyAt c pos) := by
  intro k
  induction k with
  | zero => intro _; rfl
  | succ k ihk =>
      intro hk
      have hkN : k < c.length := by omega
      have hne : keyAt c pos ≠ keyAt c k :=
        keyAt_inj c hnd hpos hkN (by omega)
      show (if keyAt c pos = keyAt c k then
          (1 - df) / (c.length : ℚ) +
            pageSummation c df (gsVal c df x k) (keyAt c k)
        else gsVal c df x k (keyAt c pos)) = x (keyAt c pos)
      rw [if_neg hne]
      exact ihk (by omega)

theorem gsVal_stable (c : Corpus) (df : ℚ) (x : Page → ℚ)
    (hnd : (corpusKeys c).Nodup) {pos : ℕ} (hpos : pos < c.length) :
    ∀ {k : ℕ}, pos + 1 ≤ k → k ≤ c.length →
      gsVal c df x k (keyAt c pos) = gsVal c df x (pos + 1) (keyAt c pos) := by
  intro k
  induction k with
  | zero => intro h1 _; omega
  | succ k ihk =>
      intro h1 h2
      rcases Nat.lt_or_ge pos k with hik | hik
      · have hkN : k < c.length := by omega
        have hne : keyAt c pos ≠ keyAt c k :=
          keyAt_inj c hnd hpos hkN (by omega)
        show (if keyAt c pos = keyAt c k then
            (1 - df) / (c.length : ℚ) +
              pageSummation c df (gsVal c df x k) (keyAt c k)
          else gsVal c df x k (keyAt c pos)) =
          gsVal c df x (pos + 1) (keyAt c pos)
        rw [if_neg hne]
        exact ihk (by omega) (by omega)
      · have : k = pos := by omega
        subst this
        rfl

theorem foldl_summation_eq_sum (df : ℚ) (d : Page → ℚ) (p : Page) :
    ∀ (c : List (Page × List Page)) (a : ℚ),
      c.foldl (fun s kv =>
        if p ∈ kv.2 then s + df * d kv.1 / (kv.2.length : ℚ) else s) a
      = a + ∑ j ∈ Finset.range c.length,
          (if p ∈ (c.getD j ("", [])).2 then
            df * d (c.getD j ("", [])).1 /
              (((c.getD j ("", [])).2).length : ℚ)
          else 0) := by
  intro c
  induction c with
  | nil => intro a; simp
  | cons kv rest ih =>
      intro a
      rw [List.foldl_cons, List.length_cons, Finset.sum_range_succ']
      simp only [List.getD_cons_succ, List.getD_cons_zero]
      by_cases h : p ∈ kv.2
      · rw [if_pos h, ih, if_pos h]
        ring
      · rw [if_neg h, ih, if_neg h]
        ring

theorem pageSummation_Acoef (c : Corpus) (df : ℚ) (d : Page → ℚ) (i : ℕ) :
    pageSummation c df d (keyAt c i) =
      ∑ j ∈ Finset.range c.length, Acoef c df i j * d (keyAt c j) := by
  rw [pageSummation, foldl_summation_eq_sum, zero_add]
  refine Finset.sum_congr rfl ?_
  intro j _
  have hlinks : (c.getD j ("", [])).2 = linksAt c j := rfl
  have hkey : (c.getD j ("", [])).1 = keyAt c j := rfl
  rw [hlinks, hkey, Acoef]
  by_cases h : keyAt c i ∈ linksAt c j
  · rw [if_pos h, if_pos h, div_mul_eq_mul_div]
  · rw [if_neg h, if_neg h, zero_mul]

/-- The pass's result at position `i`: base probability plus contributions
read from the mixed dict (same-pass values at earlier positions, previous
values at later ones) — the Gauss-Seidel recurrence. -/
theorem gsVal_final_formula (c : Corpus) (df : ℚ) (x : Page → ℚ)
    (hnd : (corpusKeys c).Nodup) {i : ℕ} (hi : i < c.length) :
    gsVal c df x c.length (keyAt c i) =
      (1 - df) / (c.length : ℚ) +
        ∑ j ∈ Finset.range c.length, Acoef c df i j *
          (if j < i then gsVal c df x c.length (keyAt c j)
           else x (keyAt c j)) := by
  rw [gsVal_stable c df x hnd hi (by omega) (by omega), gsVal_succ_self,
    pageSummation_Acoef]
  congr 1
  refine Finset.sum_congr rfl ?_
  intro j hj
  rw [Finset.mem_range] at hj
  by_cases hji : j < i
  · rw [if_pos hji, gsVal_stable c df x hnd hj (by omega) (by omega),
      show gsVal c df x c.length (keyAt c j) =
          gsVal c df x (j + 1) (keyAt c j) from
        gsVal_stable c df x hnd hj (by omega) (by omega)]
  · rw [if_neg hji, gsVal_eq_of_le c df x hnd hj (by omega)]

/-! ## Claim C3: update ordering of the pass -/

/-- C3 (amended): each pass of `iterate_pagerank`'s loop is an in-place
sequential (Gauss-Seidel) update, not a synchronous Jacobi step: the new
rank of the page at position `i` is computed from a dict in which pages at
earlier positions already hold their same-pass updated values while later
positions still hold the previous pass's values; the decision to stop is
taken only after the full pass, by comparing the pass's convergence count
with `N`. -/
theorem iterPass_gauss_seidel_inplace (corpus : Corpus) (df : ℚ)
    (x : Page → ℚ) (hnd : (corpusKeys corpus).Nodup) :
    (∀ i, i < corpus.length →
      (iterPass corpus df x).1 (keyAt corpus i) =
        (1 - df) / (corpus.length : ℚ) +
          ∑ j ∈ Finset.range corpus.length, Acoef corpus df i j *
            (if j < i then (iterPass corpus df x).1 (keyAt corpus j)
             else x (keyAt corpus j)))
    ∧ (∀ fuel, iterLoop corpus df (fuel + 1) x =
        if (iterPass corpus df x).2 = corpus.length
        then some (iterPass corpus df x).1
        else iterLoop corpus df fuel (iterPass corpus df x).1) := by
  constructor
  · intro i hi
    rw [iterPass_eq_gsVal]
    exact gsVal_final_formula corpus df x hnd hi
  · intro fuel
    rfl

theorem iterPass_gauss_seidel_inplace_witness :
    ((corpusKeys [("a", []), ("b", ["a"])]).Nodup) ∧
    ((∀ i, i < ([("a", []), ("b", ["a"])] : Corpus).length →
      (iterPass [("a", []), ("b", ["a"])] (17/20)
          (initDict [("a", []), ("b", ["a"])])).1
          (keyAt [("a", []), ("b", ["a"])] i) =
        (1 - 17/20) / (([("a", []), ("b", ["a"])] : Corpus).length : ℚ) +
          ∑ j ∈ Finset.range ([("a", []), ("b", ["a"])] : Corpus).length,
            Acoef [("a", []), ("b", ["a"])] (17/20) i j *
            (if j < i then
              (iterPass [("a", []), ("b", ["a"])] (17/20)
                (initDict [("a", []), ("b", ["a"])])).1
                (keyAt [("a", []), ("b", ["a"])] j)
             else initDict [("a", []), ("b", ["a"])]
                (keyAt [("a", []), ("b", ["a"])] j)))
    ∧ (∀ fuel, iterLoop [("a", []), ("b", ["a"])] (17/20) (fuel + 1)
          (initDict [("a", []), ("b", ["a"])]) =
        if (iterPass [("a", []), ("b", ["a"])] (17/20)
            (initDict [("a", []), ("b", ["a"])])).2 =
            ([("a", []), ("b", ["a"])] : Corpus).length
        then some (iterPass [("a", []), ("b", ["a"])] (17/20)
          (initDict [("a", []), ("b", ["a"])])).1
        else iterLoop [("a", []), ("b", ["a"])] (17/20) fuel
          (iterPass [("a", []), ("b", ["a"])] (17/20)
            (initDict [("a", []), ("b", ["a"])])).1)) :=
  ⟨by decide, iterPass_gauss_seidel_inplace _ _ _ (by decide)⟩

/-- C3 (counterexample): on the corpus
`{"a": {"b"}, "b": {"a"}, "c": {"a"}}` with damping `0.85`, starting from
the uniform initial ranks, the pass gives page `"b"` the value `689/1200` —
it reads page `"a"`'s same-pass updated value — while the spec's
synchronous (Jacobi) reference step, which reads only the previous
snapshot, gives `1/3`.  The pass is therefore not the Jacobi step. -/
theorem iterPass_ne_jacobiStep :
    (iterPass [("a", ["b"]), ("b", ["a"]), ("c", ["a"])] (17/20)
        (initDict [("a", ["b"]), ("b", ["a"]), ("c", ["a"])])).1 "b"
      = 689/1200
    ∧ jacobiStep [("a", ["b"]), ("b", ["a"]), ("c", ["a"])] (17/20)
        (initDict [("a", ["b"]), ("b", ["a"]), ("c", ["a"])]) "b" = 1/3
    ∧ ((689:ℚ)/1200) ≠ 1/3 := by
  refine ⟨?_, ?_, by norm_num⟩ <;>
  norm_num [iterPass, jacobiStep, pageSummation, initDict, corpusKeys,
    linksOf, abs_lt,
    show ¬(("b":String) = "a") from by decide,
    show ¬(("a":String) = "b") from by decide,
    show ¬(("c":String) = "a") from by decide,
    show ¬(("c":String) = "b") from by decide,
    show ¬(("a":String) = "c") from by decide,
    show ¬(("b":String) = "c") from by decide]

/-! ## Claim C8: structure of the sampling estimator's output -/

theorem valueAt_map_fn (c : Corpus) (g : Page → ℚ) (q : Page)
    (hq : q ∈ corpusKeys c) :
    valueAt (c.map fun kv => (kv.1, g kv.1)) q = some (g q) := by
  induction c with
  | nil => cases hq
  | cons kv rest ih =>
      rw [List.map_cons, valueAt_cons]
      by_cases h : kv.1 = q
      · rw [if_pos h, h]
      · rcases List.mem_cons.mp hq with he | he
        · exact absurd he.symm h
        · rw [if_neg h]
          exact ih he

theorem bumpCount_counts (c : Corpus) (vs : List Page) (t : Page) :
    bumpCount (c.map fun kv => (kv.1, vs.count kv.1)) t =
      c.map fun kv => (kv.1, vs.count kv.1 + if kv.1 = t then 1 else 0) := by
  simp only [bumpCount, List.map_map]
  refine List.map_congr_left ?_
  intro kv _
  by_cases h : kv.1 = t <;> simp [h]

/-- Every page the walk visits is a key of the corpus (the population of
both `random.choice` and `random.choices` is `all_pages`). -/
theorem walkVisits_mem (corpus : Corpus) (df : ℚ) (start : Page)
    (pick : ℕ → List (Page × ℚ) → Page)
    (hstart : start ∈ corpusKeys corpus)
    (hpick : ∀ i m, pick i m ∈ corpusKeys corpus) :
    ∀ i, walkVisits corpus df start pick i ∈ corpusKeys corpus := by
  intro i
  cases i with
  | zero => exact hstart
  | succ i => exact hpick i _

/-- The state of the sampling loop after `k` iterations: the counter dict
holds, for every page, its number of occurrences among the first `k`
visits, and the current page is the `k`-th visit. -/
theorem sample_fold_invariant (corpus : Corpus) (df : ℚ) (start : Page)
    (pick : ℕ → List (Page × ℚ) → Page) :
    ∀ k : ℕ,
      (List.range k).foldl
        (fun (st : List (Page × ℕ) × Page) i =>
          (bumpCount st.1 st.2,
           pick i (transition_model corpus st.2 df)))
        (corpus.map fun kv => (kv.1, 0), start)
      = (corpus.map fun kv =>
          (kv.1, ((List.range k).map
            (walkVisits corpus df start pick)).count kv.1),
         walkVisits corpus df start pick k) := by
  intro k
  induction k with
  | zero => simp [walkVisits]
  | succ k ih =>
      rw [List.range_succ, List.foldl_append, ih, List.foldl_cons,
        List.foldl_nil]
      dsimp only
      rw [bumpCount_counts]
      rw [Prod.mk.injEq]
      constructor
      · refine List.map_congr_left ?_
        intro kv _
        rw [List.map_append, List.count_append]
        simp only [List.map_cons, List.map_nil]
        by_cases h : kv.1 = walkVisits corpus df start pick k
        · simp [h, List.count_cons, beq_iff_eq]
        · simp [h, Ne.symm h, List.count_cons, beq_iff_eq]
      · rfl

theorem list_map_add_sum (keys : List Page) (f g : Page → ℕ) :
    (keys.map fun p => f p + g p).sum = (keys.map f).sum + (keys.map g).sum := by
  induction keys with
  | nil => rfl
  | cons a rest ih => simp [ih]; omega

theorem list_map_indicator_sum (keys : List Page) (v : Page) :
    keys.Nodup → v ∈ keys →
      (keys.map fun p => if p = v then (1:ℕ) else 0).sum = 1 := by
  induction keys with
  | nil => intro _ hv; cases hv
  | cons a rest ih =>
      intro hnd hv
      rw [List.map_cons, List.sum_cons]
      rcases List.mem_cons.mp hv with h | h
      · rw [if_pos h.symm]
        have hnotin : v ∉ rest := h ▸ (List.nodup_cons.mp hnd).1
        have hzero : (rest.map fun p => if p = v then (1:ℕ) else 0).sum = 0 := by
          apply List.sum_eq_zero
          intro x hx
          rcases List.mem_map.mp hx with ⟨p, hp, he⟩
          have hne2 : ¬p = v := fun hpv => hnotin (hpv ▸ hp)
          rw [← he]
          exact if_neg hne2
        rw [hzero]
      · have hne : ¬a = v :=
          fun he => (List.nodup_cons.mp hnd).1 (he ▸ h)
        rw [if_neg hne, ih (List.nodup_cons.mp hnd).2 h]

/-- When every visit is a corpus key and the keys are distinct, the visit
counts over the keys sum to the number of visits. -/
theorem sum_counts_eq_length (keys : List Page) (hnd : keys.Nodup) :
    ∀ vs : List Page, (∀ v ∈ vs, v ∈ keys) →
      (keys.map fun p => vs.count p).sum = vs.length := by
  intro vs
  induction vs with
  | nil =>
      intro _
      have : ∀ x ∈ keys.map fun p => ([] : List Page).count p, x = 0 := by
        intro x hx
        rcases List.mem_map.mp hx with ⟨p, _, he⟩
        simpa [List.count_nil] using he.symm
      simp [List.sum_eq_zero this]
  | cons v rest ih =>
      intro hmem
      have hsplit : (keys.map fun p => (v :: rest).count p) =
          keys.map fun p => rest.count p + if p = v then 1 else 0 := by
        refine List.map_congr_left ?_
        intro p _
        rw [List.count_cons]
        by_cases h : p = v
        · simp [h, beq_iff_eq]
        · simp [h, Ne.symm h, beq_iff_eq]
      rw [hsplit, list_map_add_sum,
        ih (fun w hw => hmem w (List.mem_cons_of_mem v hw)),
        list_map_indicator_sum keys v hnd (hmem v (List.mem_cons_self v rest)),
        List.length_cons]

theorem valuesSum_map_fn (c : Corpus) (g : Page → ℚ) :
    valuesSum (c.map fun kv => (kv.1, g kv.1)) =
      (c.map fun kv => g kv.1).sum := by
  rw [valuesSum, List.map_map]
  rfl

theorem list_count_div_sum (c : Corpus) (vs : List Page) (q : ℚ) :
    (c.map fun kv => ((vs.count kv.1 : ℕ) : ℚ) / q).sum =
      (((c.map fun kv => vs.count kv.1).sum : ℕ) : ℚ) / q := by
  induction c with
  | nil => simp
  | cons kv rest ih =>
      simp only [List.map_cons, List.sum_cons, ih]
      push_cast
      ring

/-- The mapping the spec says `sample_pagerank` produces: each page's value
is its visit count during the `n`-step walk, divided by `n`. -/
def sampleSpec (corpus : Corpus) (df : ℚ) (n : ℤ) (start : Page)
    (pick : ℕ → List (Page × ℚ) → Page) : List (Page × ℚ) :=
  corpus.map fun kv =>
    (kv.1, (((List.range n.toNat).map
        (walkVisits corpus df start pick)).count kv.1 : ℚ) / (n : ℚ))

/-- C8: for every non-empty corpus, damping factor in `(0,1)` and sample
count `n ≥ 1`, whatever the random draws (`start` from the pages,
weighted draws landing in the pages), `sample_pagerank` returns the mapping
that assigns each page its visit count divided by `n`; each value lies in
`[0, 1]` and the values sum to exactly `1`. -/
theorem sample_pagerank_counts_normalized (corpus : Corpus) (df : ℚ) (n : ℤ)
    (start : Page) (pick : ℕ → List (Page × ℚ) → Page)
    (hne : corpus ≠ []) (hnd : (corpusKeys corpus).Nodup)
    (hd0 : 0 < df) (hd1 : df < 1) (hn : 1 ≤ n)
    (hstart : start ∈ corpusKeys corpus)
    (hpick : ∀ i m, pick i m ∈ corpusKeys corpus) :
    sample_pagerank corpus df n start pick =
      some (sampleSpec corpus df n start pick)
    ∧ (∀ p ∈ corpusKeys corpus,
        valueAt (sampleSpec corpus df n start pick) p =
          some ((((List.range n.toNat).map
            (walkVisits corpus df start pick)).count p : ℚ) / (n : ℚ)))
    ∧ (∀ kv ∈ sampleSpec corpus df n start pick, 0 ≤ kv.2 ∧ kv.2 ≤ 1)
    ∧ valuesSum (sampleSpec corpus df n start pick) = 1 := by
  have hnQ : (0:ℚ) < (n : ℚ) := by
    exact_mod_cast (by omega : (0:ℤ) < n)
  have hvslen : ((List.range n.toNat).map
      (walkVisits corpus df start pick)).length = n.toNat := by
    rw [List.length_map, List.length_range]
  have hcast : ((n.toNat : ℕ) : ℚ) = (n : ℚ) := by
    have h := Int.toNat_of_nonneg (by omega : (0:ℤ) ≤ n)
    exact_mod_cast congrArg (fun z : ℤ => (z : ℚ)) h
  have hempty : corpus.isEmpty = false := by
    cases corpus with
    | nil => exact absurd rfl hne
    | cons a l => rfl
  have hn0 : ¬n = 0 := by omega
  refine ⟨?_, ?_, ?_, ?_⟩
  · unfold sample_pagerank
    rw [if_neg (by simp [hempty]), if_neg hn0]
    dsimp only
    rw [sample_fold_invariant corpus df start pick n.toNat]
    dsimp only
    rw [List.map_map]
    rfl
  · intro p hp
    rw [sampleSpec]
    exact valueAt_map_fn corpus
      (fun q => ((((List.range n.toNat).map
        (walkVisits corpus df start pick)).count q : ℕ) : ℚ) / (n : ℚ)) p hp
  · intro kv hkv
    rw [sampleSpec] at hkv
    rcases List.mem_map.mp hkv with ⟨kw, _, he⟩
    rw [← he]
    constructor
    · exact div_nonneg (by positivity) (le_of_lt hnQ)
    · rw [div_le_one hnQ, ← hcast]
      have hle : ((List.range n.toNat).map
          (walkVisits corpus df start pick)).count kw.1 ≤
          ((List.range n.toNat).map
            (walkVisits corpus df start pick)).length :=
        List.count_le_length _ _
      rw [hvslen] at hle
      exact_mod_cast hle
  · have hmem : ∀ v ∈ (List.range n.toNat).map
        (walkVisits corpus df start pick), v ∈ corpusKeys corpus := by
      intro v hv
      rcases List.mem_map.mp hv with ⟨i, _, he⟩
      rw [← he]
      exact walkVisits_mem corpus df start pick hstart hpick i
    have hsum := sum_counts_eq_length (corpusKeys corpus) hnd
      ((List.range n.toNat).map (walkVisits corpus df start pick)) hmem
    rw [corpusKeys, List.map_map] at hsum
    have hsum' : (corpus.map fun kv => ((List.range n.toNat).map
        (walkVisits corpus df start pick)).count kv.1).sum =
        ((List.range n.toNat).map
          (walkVisits corpus df start pick)).length := hsum
    have hvs : valuesSum (sampleSpec corpus df n start pick) =
        (corpus.map fun kv => ((((List.range n.toNat).map
          (walkVisits corpus df start pick)).count kv.1 : ℕ) : ℚ) /
            (n : ℚ)).sum := by
      rw [sampleSpec]
      exact valuesSum_map_fn corpus
        (fun q => ((((List.range n.toNat).map
          (walkVisits corpus df start pick)).count q : ℕ) : ℚ) / (n : ℚ))
    rw [hvs, list_count_div_sum, hsum', hvslen, hcast,
      div_self (ne_of_gt hnQ)]

theorem sample_pagerank_counts_normalized_witness :
    sample_pagerank [("a", ["b"]), ("b", ["a"])] (17/20) 2 "a"
      (fun _ _ => "b") = some [("a", 1/2), ("b", 1/2)] := by
  rw [(sample_pagerank_counts_normalized [("a", ["b"]), ("b", ["a"])] (17/20)
      2 "a" (fun _ _ => "b") (by decide) (by decide) (by norm_num)
      (by norm_num) (by norm_num) (by decide)
      (by
        intro i m
        show ("b" : Page) ∈ corpusKeys [("a", ["b"]), ("b", ["a"])]
        decide)).1]
  norm_num [sampleSpec, walkVisits, show ((2:ℤ)).toNat = 2 from rfl,
    show List.range 2 = [0, 1] from rfl, List.count_cons, beq_iff_eq,
    show ¬(("b":String) = "a") from by decide,
    show ¬(("a":String) = "b") from by decide]

/-! ## Claim C10: termination of the convergence loop

The pass is a Gauss-Seidel sweep for the nonnegative matrix
`A i j = Acoef c df i j`, whose column sums are at most `df < 1`.  A
positive weight vector `w` with `A·w ≤ θ·w` (built as a truncated Neumann
series) makes the sweep a contraction in the `w`-weighted maximum norm
with factor `θ < 1`, so the per-page deltas eventually all fall below the
`0.001` threshold in a single pass and the loop stops. -/

theorem Acoef_nonneg (c : Corpus) (df : ℚ) (hdf : 0 ≤ df) (i j : ℕ) :
    0 ≤ Acoef c df i j := by
  rw [Acoef]
  by_cases h : keyAt c i ∈ linksAt c j
  · rw [if_pos h]
    positivity
  · rw [if_neg h]

/-- One application of the contribution matrix: `(A·v) i = Σ_j A i j · v j`. -/
def applyA (c : Corpus) (df : ℚ) (v : ℕ → ℚ) : ℕ → ℚ :=
  fun i => ∑ j ∈ Finset.range c.length, Acoef c df i j * v j

/-- `A^k` applied to the all-ones vector. -/
def powOne (c : Corpus) (df : ℚ) : ℕ → ℕ → ℚ
  | 0 => fun _ => 1
  | k + 1 => applyA c df (powOne c df k)

theorem powOne_nonneg (c : Corpus) (df : ℚ) (hdf : 0 ≤ df) :
    ∀ k i, 0 ≤ powOne c df k i := by
  intro k
  induction k with
  | zero => intro i; norm_num [powOne]
  | succ k ih =>
      intro i
      rw [powOne, applyA]
      exact Finset.sum_nonneg fun j _ =>
        mul_nonneg (Acoef_nonneg c df hdf i j) (ih j)

/-- Column sums of the contribution matrix are at most `df`: with distinct
corpus keys, at most `outdegree(j)` positions receive `df/outdegree(j)`
from column `j`. -/
theorem Acoef_colsum_le (c : Corpus) (df : ℚ) (hnd : (corpusKeys c).Nodup)
    (hdf : 0 ≤ df) (j : ℕ) :
    ∑ i ∈ Finset.range c.length, Acoef c df i j ≤ df := by
  by_cases hL : (linksAt c j).length = 0
  · have hempty : linksAt c j = [] := List.length_eq_zero.mp hL
    have hzero : ∀ i ∈ Finset.range c.length, Acoef c df i j = 0 := by
      intro i _
      rw [Acoef, hempty]
      simp
    rw [Finset.sum_congr rfl hzero]
    simpa using hdf
  · have hLQ : (0:ℚ) < ((linksAt c j).length : ℚ) := by
      exact_mod_cast Nat.pos_of_ne_zero hL
    have hsum : ∑ i ∈ Finset.range c.length, Acoef c df i j =
        (((Finset.range c.length).filter
          (fun i => keyAt c i ∈ linksAt c j)).card : ℚ) *
          (df / ((linksAt c j).length : ℚ)) := by
      simp only [Acoef]
      rw [← Finset.sum_filter, Finset.sum_const, nsmul_eq_mul]
    have hcard : ((Finset.range c.length).filter
        (fun i => keyAt c i ∈ linksAt c j)).card ≤ (linksAt c j).length := by
      have h1 : ((Finset.range c.length).filter
          (fun i => keyAt c i ∈ linksAt c j)).card ≤
          (linksAt c j).toFinset.card := by
        refine Finset.card_le_card_of_injOn (fun i => keyAt c i) ?_ ?_
        · intro i hi
          rw [Finset.mem_filter] at hi
          exact List.mem_toFinset.mpr hi.2
        · intro i1 h1 i2 h2 he
          rw [Finset.mem_coe, Finset.mem_filter, Finset.mem_range] at h1 h2
          by_contra hne
          exact keyAt_inj c hnd h1.1 h2.1 hne he
      exact le_trans h1 (List.toFinset_card_le _)
    rw [hsum]
    calc (((Finset.range c.length).filter
          (fun i => keyAt c i ∈ linksAt c j)).card : ℚ) *
          (df / ((linksAt c j).length : ℚ))
        ≤ ((linksAt c j).length : ℚ) * (df / ((linksAt c j).length : ℚ)) := by
          refine mul_le_mul_of_nonneg_right ?_
            (div_nonneg hdf (le_of_lt hLQ))
          exact_mod_cast hcard
      _ = df := by field_simp

theorem applyA_total_le (c : Corpus) (df : ℚ)
    (hnd : (corpusKeys c).Nodup) (hdf : 0 ≤ df) (v : ℕ → ℚ)
    (hv : ∀ j, 0 ≤ v j) :
    ∑ i ∈ Finset.range c.length, applyA c df v i ≤
      df * ∑ j ∈ Finset.range c.length, v j := by
  simp only [applyA]
  rw [Finset.sum_comm]
  have hcols : ∀ j ∈ Finset.range c.length,
      ∑ i ∈ Finset.range c.length, Acoef c df i j * v j ≤ df * v j := by
    intro j _
    rw [← Finset.sum_mul]
    exact mul_le_mul_of_nonneg_right (Acoef_colsum_le c df hnd hdf j) (hv j)
  calc ∑ j ∈ Finset.range c.length,
        ∑ i ∈ Finset.range c.length, Acoef c df i j * v j
      ≤ ∑ j ∈ Finset.range c.length, df * v j := Finset.sum_le_sum hcols
    _ = df * ∑ j ∈ Finset.range c.length, v j := by rw [Finset.mul_sum]

theorem powOne_total_le (c : Corpus) (df : ℚ)
    (hnd : (corpusKeys c).Nodup) (hdf : 0 ≤ df) :
    ∀ k, ∑ i ∈ Finset.range c.length, powOne c df k i ≤
      df ^ k * (c.length : ℚ) := by
  intro k
  induction k with
  | zero => simp [powOne]
  | succ k ih =>
      have h1 := applyA_total_le c df hnd hdf (powOne c df k)
        (powOne_nonneg c df hdf k)
      calc ∑ i ∈ Finset.range c.length, powOne c df (k + 1) i
          = ∑ i ∈ Finset.range c.length, applyA c df (powOne c df k) i := rfl
        _ ≤ df * ∑ i ∈ Finset.range c.length, powOne c df k i := h1
        _ ≤ df * (df ^ k * (c.length : ℚ)) :=
            mul_le_mul_of_nonneg_left ih hdf
        _ = df ^ (k + 1) * (c.length : ℚ) := by ring

theorem powOne_le_total (c : Corpus) (df : ℚ) (hdf : 0 ≤ df) (k : ℕ)
    {i : ℕ} (hi : i < c.length) :
    powOne c df k i ≤ ∑ i' ∈ Finset.range c.length, powOne c df k i' :=
  Finset.single_le_sum (fun j _ => powOne_nonneg c df hdf k j)
    (Finset.mem_range.mpr hi)

/-- In ℚ, for `0 ≤ r < 1` the powers of `r` eventually push any fixed
nonnegative constant below any positive bound (Bernoulli inequality). -/
theorem pow_mul_lt_of_lt_one {r C eps : ℚ} (hr0 : 0 ≤ r) (hr1 : r < 1)
    (hC : 0 ≤ C) (heps : 0 < eps) : ∃ m : ℕ, r ^ m * C < eps := by
  rcases eq_or_lt_of_le hr0 with hz | hrpos
  · refine ⟨1, ?_⟩
    rw [← hz, pow_one, zero_mul]
    exact heps
  · obtain ⟨m, hm⟩ := exists_nat_gt (C / (eps * (1 / r - 1)))
    have hdpos : 0 < 1 / r - 1 := by
      have h1 : 1 < 1 / r := (one_lt_div hrpos).mpr hr1
      linarith
    refine ⟨m, ?_⟩
    have hpow : 1 + (m : ℚ) * (1 / r - 1) ≤ (1 + (1 / r - 1)) ^ m :=
      one_add_mul_le_pow (by linarith : (-2:ℚ) ≤ 1 / r - 1) m
    have hbase : 1 + (1 / r - 1) = 1 / r := by ring
    rw [hbase] at hpow
    have hposden : (0:ℚ) < 1 + (m : ℚ) * (1 / r - 1) := by
      have : (0:ℚ) ≤ (m : ℚ) * (1 / r - 1) :=
        mul_nonneg (Nat.cast_nonneg m) (le_of_lt hdpos)
      linarith
    have hrmpos : (0:ℚ) < r ^ m := pow_pos hrpos m
    have hrm : r ^ m ≤ 1 / (1 + (m : ℚ) * (1 / r - 1)) := by
      have h3 : (1 / r) ^ m = 1 / r ^ m := by
        rw [div_pow, one_pow]
      rw [h3] at hpow
      rw [le_div_iff hrmpos] at hpow
      rw [le_div_iff hposden, mul_comm]
      exact hpow
    have hC2 : C < eps * (1 + (m : ℚ) * (1 / r - 1)) := by
      rw [div_lt_iff (by positivity)] at hm
      have he : (m : ℚ) * (eps * (1 / r - 1)) =
          eps * ((m : ℚ) * (1 / r - 1)) := by ring
      rw [he] at hm
      nlinarith [heps]
    calc r ^ m * C ≤ (1 / (1 + (m : ℚ) * (1 / r - 1))) * C :=
          mul_le_mul_of_nonneg_right hrm hC
      _ < eps := by
          rw [div_mul_eq_mul_div, one_mul, div_lt_iff hposden]
          linarith [hC2]

/-- Truncated Neumann series `w i = Σ_{k ≤ m} (A^k 1) i / θ^k`. -/
def wVec (c : Corpus) (df θ : ℚ) (m : ℕ) : ℕ → ℚ :=
  fun i => ∑ k ∈ Finset.range (m + 1), powOne c df k i / θ ^ k

theorem wVec_ge_one (c : Corpus) (df θ : ℚ) (m : ℕ) (hθ : 0 < θ)
    (hdf : 0 ≤ df) (i : ℕ) : 1 ≤ wVec c df θ m i := by
  have h0 : powOne c df 0 i / θ ^ 0 = 1 := by norm_num [powOne]
  have h := Finset.single_le_sum
    (f := fun k => powOne c df k i / θ ^ k)
    (fun k _ => div_nonneg (powOne_nonneg c df hdf k i)
      (le_of_lt (pow_pos hθ k)))
    (Finset.mem_range.mpr (Nat.succ_pos m))
  have h' : powOne c df 0 i / θ ^ 0 ≤ wVec c df θ m i := h
  rw [h0] at h'
  exact h'

/-- The key property of the weight vector: `A·w ≤ θ·w` on the corpus
positions, provided the tail term `A^(m+1)·1` is already below
`θ^(m+1)`. -/
theorem applyA_wVec_le (c : Corpus) (df θ : ℚ) (m : ℕ)
    (hθ : 0 < θ)
    (htail : ∀ i, i < c.length → powOne c df (m + 1) i ≤ θ ^ (m + 1))
    {i : ℕ} (hi : i < c.length) :
    applyA c df (wVec c df θ m) i ≤ θ * wVec c df θ m i := by
  have hθne : θ ≠ 0 := ne_of_gt hθ
  have hswap : applyA c df (wVec c df θ m) i =
      ∑ k ∈ Finset.range (m + 1), powOne c df (k + 1) i / θ ^ k := by
    calc applyA c df (wVec c df θ m) i
        = ∑ j ∈ Finset.range c.length, Acoef c df i j *
            ∑ k ∈ Finset.range (m + 1), powOne c df k j / θ ^ k := rfl
      _ = ∑ j ∈ Finset.range c.length, ∑ k ∈ Finset.range (m + 1),
            Acoef c df i j * (powOne c df k j / θ ^ k) :=
          Finset.sum_congr rfl fun j _ => Finset.mul_sum _ _ _
      _ = ∑ k ∈ Finset.range (m + 1), ∑ j ∈ Finset.range c.length,
            Acoef c df i j * (powOne c df k j / θ ^ k) := Finset.sum_comm
      _ = ∑ k ∈ Finset.range (m + 1),
            (∑ j ∈ Finset.range c.length, Acoef c df i j * powOne c df k j)
              / θ ^ k := by
          refine Finset.sum_congr rfl fun k _ => ?_
          rw [Finset.sum_div]
          exact Finset.sum_congr rfl fun j _ => by rw [mul_div_assoc]
      _ = ∑ k ∈ Finset.range (m + 1), powOne c df (k + 1) i / θ ^ k := rfl
  have hterm : ∀ k : ℕ,
      θ * (powOne c df (k + 1) i / θ ^ (k + 1)) =
        powOne c df (k + 1) i / θ ^ k := by
    intro k
    rw [pow_succ]
    field_simp
    ring
  have hw : θ * wVec c df θ m i =
      θ + ∑ k ∈ Finset.range m, powOne c df (k + 1) i / θ ^ k := by
    rw [wVec, Finset.sum_range_succ']
    rw [mul_add, Finset.mul_sum]
    have h0 : powOne c df 0 i / θ ^ 0 = 1 := by norm_num [powOne]
    rw [h0, mul_one, add_comm]
    congr 1
    exact Finset.sum_congr rfl fun k _ => hterm k
  have ha : applyA c df (wVec c df θ m) i =
      (∑ k ∈ Finset.range m, powOne c df (k + 1) i / θ ^ k) +
        powOne c df (m + 1) i / θ ^ m := by
    rw [hswap, Finset.sum_range_succ]
  have hlast : powOne c df (m + 1) i / θ ^ m ≤ θ := by
    rw [div_le_iff (pow_pos hθ m)]
    calc powOne c df (m + 1) i ≤ θ ^ (m + 1) := htail i hi
      _ = θ * θ ^ m := by rw [pow_succ]; ring
  rw [ha, hw]
  linarith [hlast]

/-- Consecutive-pass deltas obey the Gauss-Seidel recurrence: the new delta
at position `i` is bounded by contributions of new deltas at earlier
positions and old deltas at later ones. -/
theorem gs_delta_recurrence (c : Corpus) (df : ℚ) (x : Page → ℚ)
    (hnd : (corpusKeys c).Nodup) (hdf : 0 ≤ df) {i : ℕ}
    (hi : i < c.length) :
    |gsVal c df x c.length (keyAt c i) -
      gsVal c df (gsVal c df x c.length) c.length (keyAt c i)| ≤
      ∑ j ∈ Finset.range c.length, Acoef c df i j *
        (if j < i then
          |gsVal c df x c.length (keyAt c j) -
            gsVal c df (gsVal c df x c.length) c.length (keyAt c j)|
         else |x (keyAt c j) - gsVal c df x c.length (keyAt c j)|) := by
  have h1 := gsVal_final_formula c df x hnd hi
  have h2 := gsVal_final_formula c df (gsVal c df x c.length) hnd hi
  have hdiff : gsVal c df x c.length (keyAt c i) -
      gsVal c df (gsVal c df x c.length) c.length (keyAt c i) =
      ∑ j ∈ Finset.range c.length, Acoef c df i j *
        ((if j < i then gsVal c df x c.length (keyAt c j)
          else x (keyAt c j)) -
         (if j < i then
            gsVal c df (gsVal c df x c.length) c.length (keyAt c j)
          else gsVal c df x c.length (keyAt c j))) := by
    rw [h1, h2, add_sub_add_left_eq_sub, ← Finset.sum_sub_distrib]
    exact Finset.sum_congr rfl fun j _ => by rw [mul_sub]
  rw [hdiff]
  refine le_trans (Finset.abs_sum_le_sum_abs _ _) ?_
  refine Finset.sum_le_sum fun j _ => ?_
  rw [abs_mul, abs_of_nonneg (Acoef_nonneg c df hdf i j)]
  refine mul_le_mul_of_nonneg_left ?_ (Acoef_nonneg c df hdf i j)
  by_cases hji : j < i
  · rw [if_pos hji, if_pos hji, if_pos hji]
  · rw [if_neg hji, if_neg hji, if_neg hji]

/-- Contraction of one pass in the `w`-weighted maximum norm: if the
previous deltas are bounded by `M·w`, the next deltas are bounded by
`θ·M·w`. -/
theorem gs_contraction (c : Corpus) (df : ℚ) (x : Page → ℚ)
    (hnd : (corpusKeys c).Nodup) (hdf : 0 ≤ df)
    (w : ℕ → ℚ) (θ M : ℚ) (hθ0 : 0 < θ) (hθ1 : θ ≤ 1) (hM : 0 ≤ M)
    (hw : ∀ j, j < c.length → 0 ≤ w j)
    (hwA : ∀ i, i < c.length →
      ∑ j ∈ Finset.range c.length, Acoef c df i j * w j ≤ θ * w i)
    (he : ∀ j, j < c.length →
      |x (keyAt c j) - gsVal c df x c.length (keyAt c j)| ≤ M * w j) :
    ∀ i, i < c.length →
      |gsVal c df x c.length (keyAt c i) -
        gsVal c df (gsVal c df x c.length) c.length (keyAt c i)| ≤
        θ * M * w i := by
  intro i
  induction i using Nat.strong_induction_on with
  | _ i ih =>
      intro hi
      refine le_trans (gs_delta_recurrence c df x hnd hdf hi) ?_
      have hstep : ∑ j ∈ Finset.range c.length, Acoef c df i j *
          (if j < i then
            |gsVal c df x c.length (keyAt c j) -
              gsVal c df (gsVal c df x c.length) c.length (keyAt c j)|
           else |x (keyAt c j) - gsVal c df x c.length (keyAt c j)|) ≤
          ∑ j ∈ Finset.range c.length, Acoef c df i j * (M * w j) := by
        refine Finset.sum_le_sum fun j hj => ?_
        rw [Finset.mem_range] at hj
        refine mul_le_mul_of_nonneg_left ?_ (Acoef_nonneg c df hdf i j)
        by_cases hji : j < i
        · rw [if_pos hji]
          refine le_trans (ih j hji hj) ?_
          calc θ * M * w j = θ * (M * w j) := by ring
            _ ≤ 1 * (M * w j) := mul_le_mul_of_nonneg_right hθ1
                (mul_nonneg hM (hw j hj))
            _ = M * w j := one_mul _
        · rw [if_neg hji]
          exact he j hj
      refine le_trans hstep ?_
      have h1 : ∑ j ∈ Finset.range c.length, Acoef c df i j * (M * w j) =
          M * ∑ j ∈ Finset.range c.length, Acoef c df i j * w j := by
        rw [Finset.mul_sum]
        exact Finset.sum_congr rfl fun j _ => by ring
      rw [h1]
      calc M * ∑ j ∈ Finset.range c.length, Acoef c df i j * w j
          ≤ M * (θ * w i) := mul_le_mul_of_nonneg_left (hwA i hi) hM
        _ = θ * M * w i := by ring

/-- One pass as a map on rank dicts (the dict component of `iterPass`). -/
def passIter (c : Corpus) (df : ℚ) (d : Page → ℚ) : Page → ℚ :=
  (iterPass c df d).1

theorem passIter_eq (c : Corpus) (df : ℚ) (d : Page → ℚ) :
    passIter c df d = gsVal c df d c.length := by
  rw [passIter, iterPass_eq_gsVal]

/-- Geometric decay of the per-page deltas along the pass sequence. -/
theorem delta_chain (c : Corpus) (df θ : ℚ) (w : ℕ → ℚ) (x : Page → ℚ)
    (hnd : (corpusKeys c).Nodup) (hdf : 0 ≤ df)
    (hθ0 : 0 < θ) (hθ1 : θ ≤ 1)
    (hw1 : ∀ j, j < c.length → 1 ≤ w j)
    (hwA : ∀ i, i < c.length →
      ∑ j ∈ Finset.range c.length, Acoef c df i j * w j ≤ θ * w i) :
    ∀ K, ∀ i, i < c.length →
      |(passIter c df)^[K] x (keyAt c i) -
        (passIter c df)^[K + 1] x (keyAt c i)| ≤
      θ ^ K * (∑ i' ∈ Finset.range c.length,
        |x (keyAt c i') - passIter c df x (keyAt c i')|) * w i := by
  have hw0 : ∀ j, j < c.length → 0 ≤ w j := fun j hj =>
    le_trans zero_le_one (hw1 j hj)
  have hM0nn : 0 ≤ ∑ i' ∈ Finset.range c.length,
      |x (keyAt c i') - passIter c df x (keyAt c i')| :=
    Finset.sum_nonneg fun i' _ => abs_nonneg _
  intro K
  induction K with
  | zero =>
      intro i hi
      rw [Function.iterate_zero_apply, pow_zero, one_mul]
      have h1 : |x (keyAt c i) - (passIter c df)^[0 + 1] x (keyAt c i)| ≤
          ∑ i' ∈ Finset.range c.length,
            |x (keyAt c i') - passIter c df x (keyAt c i')| := by
        rw [Function.iterate_one]
        exact Finset.single_le_sum
          (f := fun i' => |x (keyAt c i') - passIter c df x (keyAt c i')|)
          (fun i' _ => abs_nonneg _) (Finset.mem_range.mpr hi)
      exact le_trans h1 (le_mul_of_one_le_right hM0nn (hw1 i hi))
  | succ K ih =>
      intro i hi
      have e1 : (passIter c df)^[K + 1] x =
          gsVal c df ((passIter c df)^[K] x) c.length := by
        rw [Function.iterate_succ_apply', passIter_eq]
      have e2 : (passIter c df)^[K + 1 + 1] x =
          gsVal c df (gsVal c df ((passIter c df)^[K] x) c.length)
            c.length := by
        rw [Function.iterate_succ_apply', e1, passIter_eq]
      rw [e1, e2]
      have hcontr := gs_contraction c df ((passIter c df)^[K] x) hnd hdf w θ
        (θ ^ K * (∑ i' ∈ Finset.range c.length,
          |x (keyAt c i') - passIter c df x (keyAt c i')|))
        hθ0 hθ1 (mul_nonneg (pow_nonneg (le_of_lt hθ0) K) hM0nn) hw0 hwA
        (fun j hj => by
          have h2 := ih j hj
          rw [e1] at h2
          calc |(passIter c df)^[K] x (keyAt c j) -
              gsVal c df ((passIter c df)^[K] x) c.length (keyAt c j)| ≤
              θ ^ K * (∑ i' ∈ Finset.range c.length,
                |x (keyAt c i') - passIter c df x (keyAt c i')|) * w j := h2
            _ = θ ^ K * (∑ i' ∈ Finset.range c.length,
                |x (keyAt c i') - passIter c df x (keyAt c i')|) * w j :=
              rfl) i hi
      refine le_trans hcontr (le_of_eq ?_)
      ring

/-- If every page's delta in a pass is below the threshold, the pass's
convergence count is `N`. -/
theorem pass_count_of_small (c : Corpus) (df : ℚ) (x : Page → ℚ)
    (hnd : (corpusKeys c).Nodup)
    (h : ∀ i, i < c.length →
      |x (keyAt c i) - gsVal c df x c.length (keyAt c i)| < 1 / 1000) :
    (iterPass c df x).2 = c.length := by
  rw [iterPass_eq_gsVal]
  show (List.range c.length).countP (convTest c df x) = c.length
  have hall : ∀ a ∈ List.range c.length, convTest c df x a = true := by
    intro a ha
    rw [List.mem_range] at ha
    rw [convTest, decide_eq_true_eq,
      gsVal_eq_of_le c df x hnd ha (le_refl a),
      show gsVal c df x (a + 1) (keyAt c a) =
          gsVal c df x c.length (keyAt c a) from
        (gsVal_stable c df x hnd ha (by omega) (le_refl c.length)).symm]
    exact h a ha
  calc (List.range c.length).countP (convTest c df x)
      = (List.range c.length).length := List.countP_eq_length.mpr hall
    _ = c.length := List.length_range _

/-- If the pass taken after `K` warm-up passes reports full convergence,
the loop returns within `K + 1` passes. -/
theorem iterLoop_isSome_of (c : Corpus) (df : ℚ) :
    ∀ (K : ℕ) (d : Page → ℚ),
      (iterPass c df ((passIter c df)^[K] d)).2 = c.length →
      ∃ r, iterLoop c df (K + 1) d = some r := by
  intro K
  induction K with
  | zero =>
      intro d h
      rw [Function.iterate_zero_apply] at h
      refine ⟨(iterPass c df d).1, ?_⟩
      show (if (iterPass c df d).2 = c.length then some (iterPass c df d).1
        else iterLoop c df 0 (iterPass c df d).1) = some (iterPass c df d).1
      rw [if_pos h]
  | succ K ih =>
      intro d h
      rw [Function.iterate_succ_apply] at h
      by_cases hc : (iterPass c df d).2 = c.length
      · refine ⟨(iterPass c df d).1, ?_⟩
        show (if (iterPass c df d).2 = c.length then some (iterPass c df d).1
          else iterLoop c df (K + 1) (iterPass c df d).1) =
          some (iterPass c df d).1
        rw [if_pos hc]
      · obtain ⟨r, hr⟩ := ih (passIter c df d) h
        refine ⟨r, ?_⟩
        show (if (iterPass c df d).2 = c.length then some (iterPass c df d).1
          else iterLoop c df (K + 1) (iterPass c df d).1) = some r
        rw [if_neg hc]
        exact hr

/-- C10: for every non-empty corpus (with distinct keys, as a Python dict
guarantees) and every damping factor in `(0,1)`, the convergence loop of
`iterate_pagerank` terminates: some finite fuel makes the embedded loop
return a rank dict. -/
theorem iterate_pagerank_terminates (corpus : Corpus) (df : ℚ)
    (hne : corpus ≠ []) (hnd : (corpusKeys corpus).Nodup)
    (hdf0 : 0 < df) (hdf1 : df < 1) :
    ∃ fuel r, iterate_pagerank corpus df fuel = some r := by
  have hdf0' : (0:ℚ) ≤ df := le_of_lt hdf0
  have hθ0 : 0 < (1 + df) / 2 := by linarith
  have hθ1 : (1 + df) / 2 < 1 := by linarith
  have hdθ : df < (1 + df) / 2 := by linarith
  have hratio0 : 0 ≤ df / ((1 + df) / 2) :=
    div_nonneg hdf0' (le_of_lt hθ0)
  have hratio1 : df / ((1 + df) / 2) < 1 := (div_lt_one hθ0).mpr hdθ
  obtain ⟨m, hm⟩ := pow_mul_lt_of_lt_one hratio0 hratio1
    (show (0:ℚ) ≤ (corpus.length : ℚ) by positivity) one_pos
  have hm1 : (df / ((1 + df) / 2)) ^ (m + 1) * (corpus.length : ℚ) ≤ 1 := by
    have h1 : (df / ((1 + df) / 2)) ^ (m + 1) * (corpus.length : ℚ) =
        (df / ((1 + df) / 2)) *
          ((df / ((1 + df) / 2)) ^ m * (corpus.length : ℚ)) := by ring
    rw [h1]
    calc (df / ((1 + df) / 2)) *
          ((df / ((1 + df) / 2)) ^ m * (corpus.length : ℚ))
        ≤ 1 * ((df / ((1 + df) / 2)) ^ m * (corpus.length : ℚ)) := by
          refine mul_le_mul_of_nonneg_right (le_of_lt hratio1) ?_
          positivity
      _ = (df / ((1 + df) / 2)) ^ m * (corpus.length : ℚ) := one_mul _
      _ ≤ 1 := le_of_lt hm
  have htail : ∀ i, i < corpus.length →
      powOne corpus df (m + 1) i ≤ ((1 + df) / 2) ^ (m + 1) := by
    intro i hi
    have hb : df ^ (m + 1) * (corpus.length : ℚ) ≤ ((1 + df) / 2) ^ (m + 1) := by
      rw [div_pow, div_mul_eq_mul_div, div_le_one (pow_pos hθ0 _)] at hm1
      linarith
    calc powOne corpus df (m + 1) i
        ≤ ∑ i' ∈ Finset.range corpus.length, powOne corpus df (m + 1) i' :=
          powOne_le_total corpus df hdf0' (m + 1) hi
      _ ≤ df ^ (m + 1) * (corpus.length : ℚ) :=
          powOne_total_le corpus df hnd hdf0' (m + 1)
      _ ≤ ((1 + df) / 2) ^ (m + 1) := hb
  have hw1 : ∀ j, j < corpus.length →
      1 ≤ wVec corpus df ((1 + df) / 2) m j :=
    fun j _ => wVec_ge_one corpus df ((1 + df) / 2) m hθ0 hdf0' j
  have hw0 : ∀ j, j < corpus.length →
      0 ≤ wVec corpus df ((1 + df) / 2) m j :=
    fun j hj => le_trans zero_le_one (hw1 j hj)
  have hwA : ∀ i, i < corpus.length →
      ∑ j ∈ Finset.range corpus.length, Acoef corpus df i j *
        wVec corpus df ((1 + df) / 2) m j ≤
        ((1 + df) / 2) * wVec corpus df ((1 + df) / 2) m i :=
    fun i hi => applyA_wVec_le corpus df ((1 + df) / 2) m hθ0 htail hi
  have hM0nn : 0 ≤ ∑ i' ∈ Finset.range corpus.length,
      |initDict corpus (keyAt corpus i') -
        passIter corpus df (initDict corpus) (keyAt corpus i')| :=
    Finset.sum_nonneg fun i' _ => abs_nonneg _
  have hWnn : 0 ≤ ∑ i' ∈ Finset.range corpus.length,
      wVec corpus df ((1 + df) / 2) m i' :=
    Finset.sum_nonneg fun i' hi' => hw0 i' (Finset.mem_range.mp hi')
  obtain ⟨K, hK⟩ := pow_mul_lt_of_lt_one (le_of_lt hθ0) hθ1
    (mul_nonneg hM0nn hWnn) (show (0:ℚ) < 1 / 1000 by norm_num)
  have hdelta := delta_chain corpus df ((1 + df) / 2)
    (wVec corpus df ((1 + df) / 2) m) (initDict corpus) hnd hdf0'
    hθ0 (le_of_lt hθ1) hw1 hwA K
  have hsmall : ∀ i, i < corpus.length →
      |(passIter corpus df)^[K] (initDict corpus) (keyAt corpus i) -
        gsVal corpus df ((passIter corpus df)^[K] (initDict corpus))
          corpus.length (keyAt corpus i)| < 1 / 1000 := by
    intro i hi
    have h1 := hdelta i hi
    rw [Function.iterate_succ_apply', passIter_eq] at h1
    have h2 : ((1 + df) / 2) ^ K *
        (∑ i' ∈ Finset.range corpus.length,
          |initDict corpus (keyAt corpus i') -
            passIter corpus df (initDict corpus) (keyAt corpus i')|) *
        wVec corpus df ((1 + df) / 2) m i ≤
        ((1 + df) / 2) ^ K *
        ((∑ i' ∈ Finset.range corpus.length,
          |initDict corpus (keyAt corpus i') -
            passIter corpus df (initDict corpus) (keyAt corpus i')|) *
         (∑ i' ∈ Finset.range corpus.length,
          wVec corpus df ((1 + df) / 2) m i')) := by
      have hwle : wVec corpus df ((1 + df) / 2) m i ≤
          ∑ i' ∈ Finset.range corpus.length,
            wVec corpus df ((1 + df) / 2) m i' :=
        Finset.single_le_sum
          (f := fun i' => wVec corpus df ((1 + df) / 2) m i')
          (fun j hj => hw0 j (Finset.mem_range.mp hj))
          (Finset.mem_range.mpr hi)
      calc ((1 + df) / 2) ^ K *
          (∑ i' ∈ Finset.range corpus.length,
            |initDict corpus (keyAt corpus i') -
              passIter corpus df (initDict corpus) (keyAt corpus i')|) *
          wVec corpus df ((1 + df) / 2) m i
          ≤ ((1 + df) / 2) ^ K *
            (∑ i' ∈ Finset.range corpus.length,
              |initDict corpus (keyAt corpus i') -
                passIter corpus df (initDict corpus) (keyAt corpus i')|) *
            (∑ i' ∈ Finset.range corpus.length,
              wVec corpus df ((1 + df) / 2) m i') := by
            refine mul_le_mul_of_nonneg_left hwle ?_
            exact mul_nonneg (pow_nonneg (le_of_lt hθ0) K) hM0nn
        _ = ((1 + df) / 2) ^ K *
            ((∑ i' ∈ Finset.range corpus.length,
              |initDict corpus (keyAt corpus i') -
                passIter corpus df (initDict corpus) (keyAt corpus i')|) *
             (∑ i' ∈ Finset.range corpus.length,
              wVec corpus df ((1 + df) / 2) m i')) := by ring
    exact lt_of_le_of_lt (le_trans h1 h2) hK
  have hcnt := pass_count_of_small corpus df
    ((passIter corpus df)^[K] (initDict corpus)) hnd hsmall
  obtain ⟨r, hr⟩ := iterLoop_isSome_of corpus df K (initDict corpus) hcnt
  exact ⟨K + 1, r, hr⟩

theorem iterate_pagerank_terminates_witness :
    ([("a.html", [])] : Corpus) ≠ [] ∧
    (corpusKeys [("a.html", [])]).Nodup ∧
    (0:ℚ) < 17/20 ∧ (17:ℚ)/20 < 1 ∧
    ∃ fuel r, iterate_pagerank [("a.html", [])] (17/20) fuel = some r :=
  ⟨by decide, by decide, by norm_num, by norm_num,
    iterate_pagerank_terminates [("a.html", [])] (17/20) (by decide)
      (by decide) (by norm_num) (by norm_num)⟩
